import Mathlib

/-!
Verification development for the CLIME repository (alexhepburn/CLIME).

Shallow embedding of the bLIMEy local-surrogate explainer
(`clime/explainer/BLIMEY.py`) and the fidelity evaluation suite
(`clime/evaluation/faithfulness.py`).

Conventions of the embedding:
* numpy arrays over float64 are embedded as lists of rationals (`List ℚ`,
  `List (List ℚ)`); exact rational arithmetic stands in for float64, and
  the two decisive non-real behaviours of Python/numpy division (raising
  `ZeroDivisionError` on `int/int` with a zero denominator, and producing
  `nan`/`inf` on numpy-scalar division by zero) are modelled explicitly by
  the `FidResult` type.
* the module `clime/data/costs.py` (distance-kernel weights and
  class-imbalance weights) is not part of the inspected source; it is
  modelled from the spec, as documented on each such definition.
* numpy and sklearn are external libraries; the calls the source makes
  into them (`np.random.multivariate_normal`, `np.cov`, `np.round`,
  `sklearn.linear_model.Ridge`) are modelled from their documented
  behaviour at the level of detail the claims depend on, as documented on
  each such definition.
-/

namespace Clime

/-- A numeric vector (one row of a numpy array, or a 1-d array). -/
abbrev Vec := List ℚ

/-- A numeric matrix, stored as its list of rows. -/
abbrev Mat := List (List ℚ)

/-- Dot product of two vectors (numpy `a @ b` / elementwise product summed). -/
def dot (a b : Vec) : ℚ := (List.zipWith (· * ·) a b).sum

/-- Squared Euclidean distance between two vectors. -/
def sqDist (a b : Vec) : ℚ := (List.zipWith (fun x y => (x - y) ^ 2) a b).sum

/-- Matrix–vector product. -/
def matVec (A : Mat) (x : Vec) : Vec := A.map (fun r => dot r x)

/-- Transpose of a matrix (column count taken from the first row). -/
def transposeMat (A : Mat) : Mat :=
  (List.range A.headI.length).map (fun j => A.map (fun r => r.getD j 0))

/-- The n×n identity matrix (`np.eye`). -/
def identityMat (n : ℕ) : Mat :=
  (List.range n).map (fun i => (List.range n).map (fun j => if i = j then (1 : ℚ) else 0))

/-- Mean of column `j` of a matrix. -/
def colMean (X : Mat) (j : ℕ) : ℚ := (X.map (fun r => r.getD j 0)).sum / X.length

/-- Model of `np.cov(X.T)` as called in `bLIMEy._get_local_sampling_cov`:
the empirical covariance matrix of the columns of `X`, with numpy's default
`ddof=1` (division by `n - 1`).  (For `n ≤ 1` numpy warns and produces
non-finite entries; no claim touches that case, and Lean's total division
by zero stands in.) -/
def np_cov (X : Mat) : Mat :=
  let n := X.length
  let d := X.headI.length
  (List.range d).map (fun i => (List.range d).map (fun j =>
    (X.map (fun r => (r.getD i 0 - colMean X i) * (r.getD j 0 - colMean X j))).sum
      / ((n : ℚ) - 1)))

/-- Determinant of a square matrix by Laplace expansion along the first row. -/
def listDet : Mat → ℚ
  | [] => 1
  | r :: rest =>
    ((List.range r.length).map (fun j =>
      (-1 : ℚ) ^ j * r.getD j 0 * listDet (rest.map (fun row => row.eraseIdx j)))).sum
termination_by A => A.length
decreasing_by simp [List.length_map]

/-- Principal submatrix of `A` on the index set `S` (rows and columns `S`). -/
def principalSub (A : Mat) (S : List ℕ) : Mat :=
  S.map (fun i => S.map (fun j => (A.getD i []).getD j 0))

/-- All subsets of `{0, …, n-1}`, as sorted index lists. -/
def subsetsUpTo : ℕ → List (List ℕ)
  | 0 => [[]]
  | n + 1 => subsetsUpTo n ++ (subsetsUpTo n).map (fun S => S ++ [n])

/-- Model of the validity test performed inside
`np.random.multivariate_normal` with its default `check_valid='warn'`:
the matrix is accepted as a covariance iff it is symmetric positive
semi-definite.  numpy tests this numerically through an SVD with a
tolerance; the exact-arithmetic idealisation used here is the classical
characterisation "symmetric and every principal minor is non-negative". -/
def psdCheck (A : Mat) : Prop :=
  transposeMat A = A ∧ ∀ S ∈ subsetsUpTo A.length, 0 ≤ listDet (principalSub A S)

instance (A : Mat) : Decidable (psdCheck A) := by
  unfold psdCheck
  exact inferInstance

/-- Positive semi-definiteness of a matrix, as in the claim: every
quadratic form value is non-negative. -/
def IsPSD (A : Mat) : Prop := ∀ x : Vec, 0 ≤ dot x (matVec A x)

/-- A dataset dict as used throughout the source: key `'X'` (feature
matrix) always present, key `'y'` (label vector) optional — fidelity is
also invoked on sampled data that has no labels.  Labels are int64 in the
source's datasets, hence `ℤ`. -/
structure Dataset where
  X : Mat
  y : Option (List ℤ)

/-- The external black-box model: row-wise `predict` (int64 label) and
row-wise `predict_proba` (one probability row per input row). -/
structure BlackBox where
  predict : Vec → ℤ
  predict_proba : Vec → Vec

/-- A fitted `sklearn.linear_model.Ridge` multi-output model: coefficient
matrix `coef_` (one row per target column) and intercept vector. -/
structure Ridge where
  coef : Mat
  intercept : Vec

/-- `self.sampled_data` right after `bLIMEy._sample_locally`: the sampled
feature matrix `'X'` and the black box's labels `'y'` on it. -/
structure SampledData where
  X : Mat
  y : List ℤ

/-- The keyword flags of `bLIMEy.__init__`, with the source's defaults. -/
structure Flags where
  class_weight_data : Bool := false
  class_weight_sampled : Bool := false
  weight_locally : Bool := true
  rebalance_sampled_data : Bool := false

/-- Non-fatal warnings the code can emit (`warnings.warn` in
`_get_class_weights`, and numpy's RuntimeWarning for a covariance matrix
that fails the positive-semi-definite check). -/
inductive Warning where
  | noClassData
  | covNotPSD
deriving DecidableEq

/-- Outcome of one fidelity evaluation call, making Python's numeric
behaviour explicit: a finite score, a silent numpy `nan`, a silent numpy
`inf`, or a raised `ZeroDivisionError` (which in Python is a subclass of
`ArithmeticError`). -/
inductive FidResult where
  | score (q : ℚ)
  | nan
  | inf
  | zeroDivisionError
deriving DecidableEq

/-- The construction-time error channel named by the spec
(`InvalidArgument` for a bad covariance, `PreconditionError` for a
non-binary probability matrix).  The embedded source never produces
either constructor: no code path in `bLIMEy.__init__`, `_sample_locally`
or `_train_surrogate` raises. -/
inductive InitError where
  | invalidArgument
  | preconditionError

/-- Whether an `Except` value is a success. -/
def exceptIsOk {ε α : Type} : Except ε α → Bool
  | .ok _ => true
  | .error _ => false

/-- The state of numpy's hidden global random generator, as read by
`np.random.*` calls: an unbounded stream of variates together with the
current position in it.  Each draw consumes entries and advances the
position; the stream itself is what the process-wide seed determines. -/
structure NpGlobalRng where
  stream : ℕ → ℚ
  pos : ℕ

/-- Draw `n` variates from the global stream, advancing the position. -/
def drawChunk (rng : NpGlobalRng) (n : ℕ) : List ℚ × NpGlobalRng :=
  ((List.range n).map (fun i => rng.stream (rng.pos + i)), ⟨rng.stream, rng.pos + n⟩)

/-- Model of `np.random.multivariate_normal(mean, cov, size)` (external
numpy), per its documentation: it consumes `size · dim` variates from the
hidden global generator, maps them through an affine transform determined
by `mean` and a factor of `cov`, and — with the default
`check_valid='warn'` — merely emits a RuntimeWarning when `cov` is not
positive semi-definite; it does not raise.  The factor numpy uses is an
SVD square root, which is irrational in general; since no claim below
depends on the particular factor (only on the draw being a deterministic
function of the consumed stream segment, the mean and the covariance),
the covariance matrix itself stands in for its factor. -/
def multivariate_normal (rng : NpGlobalRng) (mean : Vec) (cov : Mat) (size : ℕ) :
    Mat × List Warning × NpGlobalRng :=
  let d := mean.length
  let zr := drawChunk rng (size * d)
  let rows := (List.range size).map (fun i =>
    (List.range d).map (fun j =>
      mean.getD j 0 +
        ((List.range d).map (fun k => zr.1.getD (i * d + k) 0 * (cov.getD k []).getD j 0)).sum))
  let warns := if psdCheck cov then [] else [Warning.covNotPSD]
  (rows, warns, zr.2)

/-- Modelled from the spec: `clime.data.costs.weights_based_on_distance`
lives in a module absent from the inspected source.  The spec's reference
design is an exponential kernel of the Euclidean distance to the query
point, and the properties it requires of any conformant implementation
are: maximal at distance 0, strictly decreasing, always strictly
positive.  The rational kernel `1 / (1 + distance²)` used here has
exactly those properties and keeps the embedding executable. -/
def weights_based_on_distance (query_point : Vec) (X : Mat) : List ℚ :=
  X.map (fun x => 1 / (1 + sqDist query_point x))

/-- Modelled from the spec: `clime.data.costs.weight_based_on_class_imbalance`
lives in a module absent from the inspected source.  The spec requires a
per-class weight inversely proportional to the class's frequency
(minority class weighted higher); the standard balanced formula
`n / (k · count c)` is used, with `k` the number of distinct observed
labels, indexed by class label `0, …, k-1` as the caller in
`faithfulness.py` assumes. -/
def weight_based_on_class_imbalance (data : Dataset) : List ℚ :=
  let y := data.y.getD []
  let n := y.length
  let k := y.dedup.length
  (List.range k).map (fun (i : ℕ) =>
    (n : ℚ) / ((k : ℚ) * ((y.filter (fun l => l = (i : ℤ))).length : ℚ)))

/-- `weight_based_on_class_imbalance` as called in `_train_surrogate` on
`self.data_test`, which may be `None`; the source behaviour on `None` is
inside the absent module, and the result is only ever multiplied into the
sample weights, so the empty list (contributing empty products) stands in. -/
def weight_based_on_class_imbalance_opt : Option Dataset → List ℚ
  | none => []
  | some d => weight_based_on_class_imbalance d

/-- Modelled from the spec: `clime.data.balance_oversample` lives in a
module absent from the inspected source.  Per the spec (§4.3 step 1 and
Scenario D) it oversamples the minority class of the sampled
neighbourhood until the class counts are equal within ±1, leaving the
original untouched. -/
def balance_oversample (s : SampledData) : SampledData :=
  let pairs := s.X.zip s.y
  let zeros := pairs.filter (fun p => p.2 = 0)
  let ones := pairs.filter (fun p => p.2 = 1)
  let minority := if zeros.length ≤ ones.length then zeros else ones
  let deficit := max zeros.length ones.length - min zeros.length ones.length
  if minority.length = 0 then s
  else
    let extra := (List.range deficit).map (fun i => minority.getD (i % minority.length) ([], 0))
    { X := s.X ++ extra.map (·.1), y := s.y ++ extra.map (·.2) }

/-- `bLIMEy._get_local_sampling_cov`, line for line from the source:
if `self.sampling_cov is None` then (if `self.data_test is None` then the
identity matrix of the query point's dimensionality else
`np.cov(self.data_test['X'].T)`) else the supplied `self.sampling_cov`. -/
def get_local_sampling_cov (sampling_cov : Option Mat) (data_test : Option Dataset)
    (query_point : Vec) : Mat :=
  match sampling_cov with
  | none =>
    match data_test with
    | none => identityMat query_point.length
    | some d => np_cov d.X
  | some c => c

/-- Modelled from the spec's words, as the refinement target for the
covariance-resolution claim: "(a) explicit override if supplied, (b)
empirical covariance of the reference dataset's features if a reference
dataset is supplied, (c) identity matrix (no informative prior)". -/
def cov_resolution_spec (override : Option Mat) (reference : Option Dataset)
    (query_point : Vec) : Mat :=
  match override with
  | some c => c
  | none =>
    match reference with
    | some d => np_cov d.X
    | none => identityMat query_point.length

/-- `bLIMEy._sample_locally`: resolve the covariance, draw
`self.samples` points around the query point from numpy's global
generator, and label them with the black box.  Note the signature: the
Python method takes only `black_box_model`; there is no seed parameter,
and the randomness comes from the hidden global `np.random` state
(modelled here as the explicitly threaded `NpGlobalRng`). -/
def sample_locally (rng : NpGlobalRng) (bb : BlackBox) (query_point : Vec)
    (sampling_cov : Option Mat) (data_test : Option Dataset) (samples : ℕ) :
    SampledData × List Warning × NpGlobalRng :=
  let cov := get_local_sampling_cov sampling_cov data_test query_point
  let res := multivariate_normal rng query_point cov samples
  ({ X := res.1, y := res.1.map bb.predict }, res.2.1, res.2.2)

/-- Model of `np.round` on a scalar: round half to even. -/
def np_round (q : ℚ) : ℚ :=
  let f := ⌊q⌋
  let r := q - f
  if r < 1 / 2 then f
  else if 1 / 2 < r then f + 1
  else if 2 ∣ f then f else f + 1

/-- Model of `sklearn.linear_model.Ridge(alpha=1, fit_intercept=True).fit`
(external sklearn): a total fit producing a model of the fitted shape —
one coefficient row per target column of `Y`, one intercept per target
column.  sklearn's solver accepts any number of target columns and any
sample weights without raising; its numeric output involves square roots
of the weights and is not representable in exact rational arithmetic, so
the fitted values are left as placeholder zeros.  No claim below inspects
values produced by this fit: the claims about coefficient handling
quantify over arbitrary `Ridge` values instead. -/
def ridge_fit (X : Mat) (Y : Mat) (w : List ℚ) : Ridge :=
  let k := Y.headI.length
  let d := X.headI.length
  { coef := List.replicate k (List.replicate d 0),
    intercept := List.replicate k 0 }

/-- `bLIMEy._train_surrogate`, line for line from the source: optionally
rebalance the sampled data, query the black box for probabilities,
build the sample weights (distance weighting, then the two optional
class-imbalance multipliers), and fit the ridge surrogate.  The source
contains no validation whatsoever — in particular no check on the number
of probability columns — and no `raise`; the `Except` return type records
the Python exception channel the spec names, and no branch produces an
error. -/
def train_surrogate (bb : BlackBox) (query_point : Vec) (data_test : Option Dataset)
    (flags : Flags) (sampled : SampledData) :
    Except InitError (Ridge × SampledData × Mat) :=
  let sd := if flags.rebalance_sampled_data then balance_oversample sampled else sampled
  let p := sd.X.map bb.predict_proba
  let w0 := if flags.weight_locally then weights_based_on_distance query_point sd.X
            else List.replicate sd.X.length 1
  let w1 := if flags.class_weight_data then
              let cw := weight_based_on_class_imbalance_opt data_test
              let cpm := p.map (fun row => row.map np_round)
              List.zipWith (· * ·) w0 (cpm.map (fun row => dot row cw))
            else w0
  let w2 := if flags.class_weight_sampled then
              let cw := weight_based_on_class_imbalance ⟨sd.X, some sd.y⟩
              let cpm := p.map (fun row => row.map np_round)
              List.zipWith (· * ·) w1 (cpm.map (fun row => dot row cw))
            else w1
  .ok (ridge_fit sd.X p w2, sd, p)

/-- A constructed `bLIMEy` instance: the fields `__init__` leaves behind. -/
structure Explainer where
  query_point : Vec
  sampled_X : Mat
  sampled_y : List ℤ
  sampled_p : Mat
  surrogate_model : Ridge

/-- `bLIMEy.__init__`: store the configuration, run `_sample_locally`,
then `_train_surrogate`.  Neither phase can raise (see
`sample_locally` and `train_surrogate`), so construction always
succeeds; warnings emitted during sampling are carried along. -/
def blimey_init (rng : NpGlobalRng) (bb : BlackBox) (query_point : Vec)
    (data : Option Dataset) (sampling_cov : Option Mat) (samples : ℕ) (flags : Flags) :
    Except InitError (Explainer × List Warning × NpGlobalRng) :=
  let sres := sample_locally rng bb query_point sampling_cov data samples
  match train_surrogate bb query_point data flags sres.1 with
  | .error e => .error e
  | .ok t =>
    .ok ({ query_point := query_point, sampled_X := t.2.1.X, sampled_y := t.2.1.y,
           sampled_p := t.2.2, surrogate_model := t.1 }, sres.2.1, sres.2.2)

/-- The warnings carried by a successful construction. -/
def initWarnings : Except InitError (Explainer × List Warning × NpGlobalRng) → List Warning
  | .ok v => v.2.1
  | .error _ => []

/-- `bLIMEy.get_explanation`: `return self.surrogate_model.coef_[0, :]` —
row index 0 of the surrogate's coefficient matrix. -/
def get_explanation (e : Explainer) : Vec := e.surrogate_model.coef.getD 0 []

/-- `Ridge.predict` for a fitted multi-output ridge model: for each input
row, one output per coefficient row (`x · coef_[j] + intercept_[j]`). -/
def ridge_predict (s : Ridge) (X : Mat) : Mat :=
  X.map (fun x =>
    (List.range s.coef.length).map (fun j => dot x (s.coef.getD j []) + s.intercept.getD j 0))

/-- `np.heaviside(x, h)` on a scalar: 0 below zero, `h` at zero, 1 above. -/
def heaviside (x h : ℚ) : ℚ := if x < 0 then 0 else if x = 0 then h else 1

/-- The class-1 regression output of the surrogate for one input row:
`self.surrogate_model.predict(X)[:, 1]` at that row. -/
def class1_prob (s : Ridge) (x : Vec) : ℚ :=
  dot x (s.coef.getD 1 []) + s.intercept.getD 1 0

/-- `bLIMEy.predict`: take column 1 of the surrogate's regression output,
threshold at 0.5 via `np.heaviside(p - 0.5, 1)`, and cast to int64
(`astype(np.int64)` truncates; exact on the values 0.0 and 1.0 that
heaviside produces here). -/
def predict (e : Explainer) (X : Mat) : List ℤ :=
  (ridge_predict e.surrogate_model X).map (fun row => ⌊heaviside (row.getD 1 0 - 1 / 2) 1⌋)

/-- Python/numpy semantics of the expression `sum(a) / sum(b)` as written
in `faithfulness.py` (with `a`, `b` numpy arrays of equal length): over an
empty dataset both builtin `sum`s return the Python int `0`, and Python
int division `0 / 0` raises `ZeroDivisionError` — a subclass of
`ArithmeticError`; over a nonempty dataset both sums are numpy scalars,
whose division by zero does not raise but silently yields `nan` (`0/0`)
or a signed `inf` (`x/0`), under a mere RuntimeWarning. -/
def pySumDiv (num den : ℚ) (empty : Bool) : FidResult :=
  if empty then FidResult.zeroDivisionError
  else if den = 0 then (if num = 0 then FidResult.nan else FidResult.inf)
  else FidResult.score (num / den)

/-- `faithfulness._get_preds`: predictions of both models on the
dataset's features, compared elementwise; `(bb_preds == expl_preds)`
`.astype(np.int64)` gives the 0/1 agreement vector (embedded in `ℚ`,
where it is immediately consumed by sums and products). -/
def same_preds (expl bb : Vec → ℤ) (X : Mat) : List ℚ :=
  X.map (fun x => if bb x = expl x then 1 else 0)

/-- `faithfulness.fidelity`: `sum(same_preds) / len(same_preds)`. -/
def fidelity (expl bb : Vec → ℤ) (data : Dataset) : FidResult :=
  let same := same_preds expl bb data.X
  pySumDiv same.sum (same.length : ℚ) same.isEmpty

/-- `faithfulness.local_fidelity`:
`sum(same_preds * weights) / sum(weights)` with the distance weights from
the query point. -/
def local_fidelity (expl bb : Vec → ℤ) (data : Dataset) (query_point : Vec) : FidResult :=
  let same := same_preds expl bb data.X
  let weights := weights_based_on_distance query_point data.X
  pySumDiv (List.zipWith (· * ·) same weights).sum weights.sum same.isEmpty

/-- The body of `local_fidelity` with an arbitrary weight vector in place
of the distance weights — the shared weighted-mean aggregation routine
that the equivalence claim compares plain fidelity against. -/
def local_fidelity_with_weights (expl bb : Vec → ℤ) (data : Dataset)
    (weights : List ℚ) : FidResult :=
  let same := same_preds expl bb data.X
  pySumDiv (List.zipWith (· * ·) same weights).sum weights.sum same.isEmpty

/-- One entry of the weight vector `_get_class_weights` builds in place:
the mask-assignment loop overwrites a copied int64 label `label` with
`weightings[label]` when `label ∈ range(len(weightings))` — an assignment
into an int64 array, which truncates the rational class weight toward
zero (`Int.floor`; the class weights are non-negative, where floor and C
truncation agree) — and leaves any other label value as it is. -/
def class_weight_entry (weightings : List ℚ) (label : ℤ) : ℚ :=
  if 0 ≤ label ∧ label < (weightings.length : ℤ) then
    ((⌊weightings.getD label.toNat 0⌋ : ℤ) : ℚ)
  else (label : ℚ)

/-- `faithfulness._get_class_weights`: if the dataset has no `'y'` key,
warn and return uniform (float) ones; otherwise copy the int64 label
vector, compute the per-class weightings, precompute the masks
`weights == i` on the original labels, then overwrite each masked
position with its class's (truncated) weighting. -/
def get_class_weights (data : Dataset) : List ℚ × List Warning :=
  match data.y with
  | none => (List.replicate data.X.length 1, [Warning.noClassData])
  | some y =>
    let weightings := weight_based_on_class_imbalance ⟨data.X, some y⟩
    (y.map (class_weight_entry weightings), [])

/-- `faithfulness.bal_fidelity`:
`sum(same_preds * weights) / sum(weights)` with the class-imbalance
weights; returns the result together with the warnings
`_get_class_weights` emitted. -/
def bal_fidelity (expl bb : Vec → ℤ) (data : Dataset) : FidResult × List Warning :=
  let same := same_preds expl bb data.X
  let cw := get_class_weights data
  (pySumDiv (List.zipWith (· * ·) same cw.1).sum cw.1.sum same.isEmpty, cw.2)

/-- `faithfulness.local_and_bal_fidelity`: distance weights multiplied
elementwise by the class-imbalance weights, then the same aggregation. -/
def local_and_bal_fidelity (expl bb : Vec → ℤ) (data : Dataset) (query_point : Vec) :
    FidResult × List Warning :=
  let same := same_preds expl bb data.X
  let wd := weights_based_on_distance query_point data.X
  let cw := get_class_weights data
  let weights := List.zipWith (· * ·) wd cw.1
  (pySumDiv (List.zipWith (· * ·) same weights).sum weights.sum same.isEmpty, cw.2)

/-- Well-formedness of a dataset per the spec's data model (§3, §6): when
a label vector is present it has one label per feature row, and labels
are binary `{0, 1}`. -/
def WFLabels (data : Dataset) : Prop :=
  ∀ y, data.y = some y → y.length = data.X.length ∧ ∀ l ∈ y, l = 0 ∨ l = 1

/-! Concrete objects used by witnesses and counterexamples. -/

/-- A concrete global-generator state: the stream `0, 1, 2, …`. -/
def rng0 : NpGlobalRng := ⟨fun k => (k : ℚ), 0⟩

/-- A second concrete state whose stream is pointwise equal to `rng0`'s
but written differently, so the two states are distinct terms. -/
def rngB : NpGlobalRng := ⟨fun k => ((k : ℚ) + 2) - 2, 0⟩

/-- A trivial binary black box. -/
def bb0 : BlackBox := ⟨fun _ => 0, fun _ => [1 / 2, 1 / 2]⟩

/-- A black box whose probability matrix has 3 columns (3 classes). -/
def bb3 : BlackBox := ⟨fun _ => 0, fun _ => [1 / 3, 1 / 3, 1 / 3]⟩

/-- A one-point sampled neighbourhood. -/
def sampled1 : SampledData := ⟨[[0]], [0]⟩

/-- An explainer whose fitted surrogate has coefficient rows that are
negations of each other — the shape an exact ridge fit on two
complementary probability columns produces (`p₀ + p₁ = 1` forces
`coef_[1] = -coef_[0]` after centering). -/
def expl_neg_rows : Explainer :=
  ⟨[0], [[0]], [0], [[1, 0]], ⟨[[1, 2], [-1, -2]], [0, 0]⟩⟩

/-- An explainer whose surrogate maps the input `[1/2]` to class-1 output
exactly `1/2` (a threshold tie). -/
def expl_tie : Explainer := ⟨[0], [[0]], [0], [[0, 1]], ⟨[[0], [1]], [0, 0]⟩⟩

/-- A trivial row predictor (stands for either model in fidelity calls). -/
def modelA : Vec → ℤ := fun _ => 0

/-- A small labelled dataset. -/
def dataW : Dataset := ⟨[[0], [1]], some [0, 1]⟩

/-- The same features without a label vector. -/
def dataNoY : Dataset := ⟨[[0], [1]], none⟩

/-- The empty dataset. -/
def dataE : Dataset := ⟨[], none⟩

end Clime

namespace Clime

/-! Helper lemmas. -/

theorem getD_map_of_lt {α β : Type} (f : α → β) (l : List α) (i : ℕ) (d : β) (dv : α)
    (h : i < l.length) : (l.map f).getD i d = f (l.getD i dv) := by
  induction l generalizing i with
  | nil => simp at h
  | cons a t ih =>
    cases i with
    | zero => rfl
    | succ n => simpa using ih n (by simpa using h)

/-- The concrete matrix `[[-1, 0], [0, -1]]` fails the sampler's PSD
check: its first principal minor is `-1`. -/
theorem neg_identity_not_psdCheck : ¬ psdCheck [[(-1 : ℚ), 0], [0, -1]] := by
  intro h
  have hm := h.2 [0] (by simp [subsetsUpTo])
  norm_num [listDet, principalSub, List.range_succ] at hm

end Clime

namespace Clime

/-! Claim theorems. -/

/-- C6 (confirmed): the sampling covariance is resolved exactly in the
spec's order — explicit override if supplied, else the empirical
covariance of the reference dataset's features if supplied, else the
identity matrix of the query point's dimensionality. -/
theorem get_local_sampling_cov_follows_spec_order :
    ∀ (sc : Option Mat) (ref : Option Dataset) (qp : Vec),
      get_local_sampling_cov sc ref qp = cov_resolution_spec sc ref qp := by
  intro sc ref qp
  cases sc <;> cases ref <;> rfl

/-- C1 (counterexample): on a surrogate whose coefficient matrix is
`[[1, 2], [-1, -2]]` (class-1 row the negation of the class-0 row, as a
genuine fit on complementary probability columns yields),
`get_explanation` does not return the class-1 coefficient row — it
returns that row's negation. -/
theorem get_explanation_not_class1_row :
    get_explanation expl_neg_rows ≠ expl_neg_rows.surrogate_model.coef.getD 1 [] ∧
    expl_neg_rows.surrogate_model.coef.getD 1 [] =
      (get_explanation expl_neg_rows).map (fun q => -q) := by
  constructor
  · norm_num [get_explanation, expl_neg_rows]
  · norm_num [get_explanation, expl_neg_rows]

/-- C1 (amended, proved): `get_explanation()` returns the class-0
coefficient row (row index 0) of the surrogate's coefficient matrix; the
class-1 importance is its negation (for a surrogate fitted on the two
complementary probability columns, whose coefficient rows are mutual
negations). -/
theorem get_explanation_class0_row (e : Explainer)
    (h : e.surrogate_model.coef.getD 1 [] =
      (e.surrogate_model.coef.getD 0 []).map (fun q => -q)) :
    get_explanation e = e.surrogate_model.coef.getD 0 [] ∧
    e.surrogate_model.coef.getD 1 [] = (get_explanation e).map (fun q => -q) :=
  ⟨rfl, h⟩

theorem get_explanation_class0_row_witness :
    (expl_neg_rows.surrogate_model.coef.getD 1 [] =
      (expl_neg_rows.surrogate_model.coef.getD 0 []).map (fun q => -q)) ∧
    (get_explanation expl_neg_rows = expl_neg_rows.surrogate_model.coef.getD 0 [] ∧
      expl_neg_rows.surrogate_model.coef.getD 1 [] =
        (get_explanation expl_neg_rows).map (fun q => -q)) :=
  ⟨by norm_num [get_explanation, expl_neg_rows],
    get_explanation_class0_row expl_neg_rows (by norm_num [get_explanation, expl_neg_rows])⟩

/-- C5 (counterexample): a black box returning a 3-column probability
matrix — three classes — is fitted by `_train_surrogate` without any
error: the source contains no `PreconditionError` (nor any column-count
check). -/
theorem train_surrogate_accepts_three_columns :
    (sampled1.X.map bb3.predict_proba) = [[1 / 3, 1 / 3, 1 / 3]] ∧
    (sampled1.X.map bb3.predict_proba).headI.length = 3 ∧
    exceptIsOk (train_surrogate bb3 [0] none {} sampled1) = true := by
  refine ⟨?_, ?_, rfl⟩
  · simp [bb3, sampled1]
  · simp [bb3, sampled1]

/-- C5 (amended, proved): surrogate training performs no validation of
the black box's probability matrix; for every input — probability
matrices with any number of columns included — `_train_surrogate`
completes without raising. -/
theorem train_surrogate_never_raises (bb : BlackBox) (query_point : Vec)
    (data_test : Option Dataset) (flags : Flags) (sampled : SampledData) :
    exceptIsOk (train_surrogate bb query_point data_test flags sampled) = true := rfl

/-- C2 (counterexample): two successive runs of the local sampling step
with identical `(query_point, covariance, count)` — there is no seed
parameter to hold fixed — produce different sampled feature matrices,
because each run consumes and advances numpy's hidden global random
state. -/
theorem sample_locally_successive_runs_differ :
    (sample_locally rng0 bb0 [0] (some [[1]]) none 1).1.X ≠
      (sample_locally (sample_locally rng0 bb0 [0] (some [[1]]) none 1).2.2
        bb0 [0] (some [[1]]) none 1).1.X ∧
    (sample_locally rng0 bb0 [0] (some [[1]]) none 1).1.X = [[0]] ∧
    (sample_locally (sample_locally rng0 bb0 [0] (some [[1]]) none 1).2.2
        bb0 [0] (some [[1]]) none 1).1.X = [[1]] := by
  have h1 : (sample_locally rng0 bb0 [0] (some [[1]]) none 1).1.X = [[0]] := by
    norm_num [sample_locally, multivariate_normal, drawChunk, get_local_sampling_cov,
      rng0, bb0, List.range_succ]
  have h2 : (sample_locally (sample_locally rng0 bb0 [0] (some [[1]]) none 1).2.2
      bb0 [0] (some [[1]]) none 1).1.X = [[1]] := by
    norm_num [sample_locally, multivariate_normal, drawChunk, get_local_sampling_cov,
      rng0, bb0, List.range_succ]
  refine ⟨?_, h1, h2⟩
  rw [h1, h2]
  norm_num

/-- C2 (amended, proved): the local sampling step is deterministic only
as a function of the hidden global generator state it consumes: whenever
two global states agree on the stream segment the call reads (and the
`(query_point, covariance, count)` arguments coincide), the sampled
feature matrices coincide — for any black boxes.  Randomness enters
nowhere else; but there is no per-call seed parameter. -/
theorem sample_locally_deterministic_in_global_state
    (r1 r2 : NpGlobalRng) (bb1 bb2 : BlackBox) (qp : Vec) (sc : Option Mat)
    (dt : Option Dataset) (n : ℕ)
    (h : ∀ i, i < n * qp.length → r1.stream (r1.pos + i) = r2.stream (r2.pos + i)) :
    (sample_locally r1 bb1 qp sc dt n).1.X = (sample_locally r2 bb2 qp sc dt n).1.X := by
  have hz : (List.range (n * qp.length)).map (fun i => r1.stream (r1.pos + i)) =
      (List.range (n * qp.length)).map (fun i => r2.stream (r2.pos + i)) :=
    List.map_congr_left (fun i hi => h i (List.mem_range.mp hi))
  simp only [sample_locally, multivariate_normal, drawChunk]
  rw [hz]

theorem sample_locally_deterministic_in_global_state_witness :
    (∀ i, i < 1 * List.length ([0] : Vec) →
      rng0.stream (rng0.pos + i) = rngB.stream (rngB.pos + i)) ∧
    (sample_locally rng0 bb0 [0] (some [[1]]) none 1).1.X =
      (sample_locally rngB bb0 [0] (some [[1]]) none 1).1.X :=
  ⟨by intro i hi; simp [rng0, rngB],
    sample_locally_deterministic_in_global_state rng0 rngB bb0 bb0 [0]
      (some [[1]]) none 1 (by intro i hi; simp [rng0, rngB])⟩

/-- C3 (counterexample): the matrix `[[-1, 0], [0, -1]]` is not positive
semi-definite, yet constructing an explainer with it as the sampling
covariance does not fail — no `InvalidArgument` error exists in the code;
numpy merely emits a RuntimeWarning and sampling proceeds. -/
theorem blimey_init_accepts_non_psd_cov :
    ¬ IsPSD [[-1, 0], [0, -1]] ∧
    exceptIsOk (blimey_init rng0 bb0 [0, 0] none (some [[-1, 0], [0, -1]]) 1 {}) = true ∧
    Warning.covNotPSD ∈
      initWarnings (blimey_init rng0 bb0 [0, 0] none (some [[-1, 0], [0, -1]]) 1 {}) := by
  refine ⟨?_, rfl, ?_⟩
  · intro h
    have := h [1, 0]
    norm_num [dot, matVec] at this
  · have hnp : ¬ psdCheck [[(-1 : ℚ), 0], [0, -1]] := neg_identity_not_psdCheck
    simp [blimey_init, initWarnings, sample_locally, multivariate_normal, drawChunk,
      train_surrogate, get_local_sampling_cov, hnp]

/-- C3 (amended, proved): explainer construction never fails — the
constructor contains no validation and numpy's sampler does not raise;
when the resolved sampling covariance fails the positive-semi-definite
check, a non-fatal RuntimeWarning is emitted and construction still
completes. -/
theorem blimey_init_never_raises (rng : NpGlobalRng) (bb : BlackBox) (qp : Vec)
    (data : Option Dataset) (sc : Option Mat) (n : ℕ) (flags : Flags) :
    exceptIsOk (blimey_init rng bb qp data sc n flags) = true ∧
    (¬ psdCheck (get_local_sampling_cov sc data qp) →
      Warning.covNotPSD ∈ initWarnings (blimey_init rng bb qp data sc n flags)) := by
  constructor
  · rfl
  · intro h
    simp [blimey_init, initWarnings, sample_locally, multivariate_normal,
      train_surrogate, h]

theorem blimey_init_never_raises_witness :
    (¬ psdCheck (get_local_sampling_cov (some [[-1, 0], [0, -1]]) none [0, 0])) ∧
    Warning.covNotPSD ∈
      initWarnings (blimey_init rng0 bb0 [0, 0] none (some [[-1, 0], [0, -1]]) 1 {}) :=
  ⟨by simpa [get_local_sampling_cov] using neg_identity_not_psdCheck,
    (blimey_init_never_raises rng0 bb0 [0, 0] none (some [[-1, 0], [0, -1]]) 1 {}).2
      (by simpa [get_local_sampling_cov] using neg_identity_not_psdCheck)⟩

/-- C10 (confirmed): for a binary surrogate (coefficient matrix with two
rows, as every fitted binary surrogate has), every entry `predict`
returns is 0 or 1 (int64 in the source; exact on these values), and
whenever the surrogate's class-1 regression output for a row is exactly
0.5, the returned label for that row is 1 — `np.heaviside(x, 1)` maps the
tie `x = 0` to its second argument, 1. -/
theorem predict_binary_and_tie_to_one (e : Explainer) (X : Mat) (i : ℕ)
    (hc : e.surrogate_model.coef.length = 2) (hi : i < X.length) :
    ((predict e X).getD i 0 = 0 ∨ (predict e X).getD i 0 = 1) ∧
    (class1_prob e.surrogate_model (X.getD i []) = 1 / 2 →
      (predict e X).getD i 0 = 1) := by
  have hpred : (predict e X).getD i 0 =
      ⌊heaviside (class1_prob e.surrogate_model (X.getD i []) - 1 / 2) 1⌋ := by
    unfold predict ridge_predict
    rw [List.map_map]
    rw [getD_map_of_lt _ _ _ _ [] hi]
    simp only [Function.comp]
    rw [hc]
    have hr : List.range 2 = [0, 1] := rfl
    rw [hr]
    simp [class1_prob]
  rw [hpred]
  refine ⟨?_, fun h => ?_⟩
  · unfold heaviside
    split
    · left; simp
    · split
      · right; simp
      · right; simp
  · rw [h]
    norm_num [heaviside]

theorem predict_binary_and_tie_to_one_witness :
    (expl_tie.surrogate_model.coef.length = 2 ∧ 0 < List.length [[(1 : ℚ) / 2]]) ∧
    (((predict expl_tie [[1 / 2]]).getD 0 0 = 0 ∨
        (predict expl_tie [[1 / 2]]).getD 0 0 = 1) ∧
      (class1_prob expl_tie.surrogate_model ([[(1 : ℚ) / 2]].getD 0 []) = 1 / 2 →
        (predict expl_tie [[1 / 2]]).getD 0 0 = 1)) :=
  ⟨⟨rfl, by norm_num⟩,
    predict_binary_and_tie_to_one expl_tie [[1 / 2]] 0 rfl (by norm_num)⟩

/-! Lemmas about the weighting engine and the shared aggregation. -/

theorem sqDist_nonneg (a b : Vec) : 0 ≤ sqDist a b := by
  unfold sqDist
  induction a generalizing b with
  | nil => simp
  | cons x xs ih =>
    cases b with
    | nil => simp
    | cons y ys =>
      simp only [List.zipWith_cons_cons, List.sum_cons]
      exact add_nonneg (sq_nonneg _) (ih ys)

theorem dist_weights_pos (qp : Vec) (X : Mat) :
    ∀ w ∈ weights_based_on_distance qp X, 0 < w := by
  intro w hw
  rcases List.mem_map.mp hw with ⟨x, -, rfl⟩
  have h := sqDist_nonneg qp x
  exact div_pos one_pos (by linarith)

theorem dist_weights_length (qp : Vec) (X : Mat) :
    (weights_based_on_distance qp X).length = X.length := by
  simp [weights_based_on_distance]

theorem same_preds_length (expl bb : Vec → ℤ) (X : Mat) :
    (same_preds expl bb X).length = X.length := by
  simp [same_preds]

theorem same_preds_mem (expl bb : Vec → ℤ) (X : Mat) :
    ∀ x ∈ same_preds expl bb X, x = 0 ∨ x = 1 := by
  intro x hx
  rcases List.mem_map.mp hx with ⟨v, -, rfl⟩
  by_cases h : bb v = expl v <;> simp [h]

theorem same_preds_isEmpty_false (expl bb : Vec → ℤ) (X : Mat) (h : X ≠ []) :
    (same_preds expl bb X).isEmpty = false := by
  cases X with
  | nil => exact absurd rfl h
  | cons a t => rfl

theorem pySumDiv_nonempty (num den : ℚ) (hden : den ≠ 0) :
    pySumDiv num den false = FidResult.score (num / den) := by
  simp [pySumDiv, hden]

theorem zip_mul_sum_nonneg (s w : List ℚ) (hs : ∀ x ∈ s, 0 ≤ x) (hw : ∀ x ∈ w, 0 ≤ x) :
    0 ≤ (List.zipWith (· * ·) s w).sum := by
  induction s generalizing w with
  | nil => simp
  | cons a t ih =>
    cases w with
    | nil => simp
    | cons b u =>
      simp only [List.zipWith_cons_cons, List.sum_cons]
      exact add_nonneg
        (mul_nonneg (hs a (List.mem_cons_self a t)) (hw b (List.mem_cons_self b u)))
        (ih u (fun x hx => hs x (List.mem_cons_of_mem _ hx))
          (fun x hx => hw x (List.mem_cons_of_mem _ hx)))

theorem zip_mul_sum_le (s w : List ℚ) (hs : ∀ x ∈ s, x = 0 ∨ x = 1)
    (hw : ∀ x ∈ w, 0 ≤ x) : (List.zipWith (· * ·) s w).sum ≤ w.sum := by
  induction s generalizing w with
  | nil => simpa using List.sum_nonneg hw
  | cons a t ih =>
    cases w with
    | nil => simp
    | cons b u =>
      simp only [List.zipWith_cons_cons, List.sum_cons]
      have hb := hw b (List.mem_cons_self b u)
      have h1 : a * b ≤ b := by
        rcases hs a (List.mem_cons_self a t) with rfl | rfl
        · simpa using hb
        · simp
      exact add_le_add h1 (ih u (fun x hx => hs x (List.mem_cons_of_mem _ hx))
        (fun x hx => hw x (List.mem_cons_of_mem _ hx)))

theorem sum_le_length (s : List ℚ) (hs : ∀ x ∈ s, x = 0 ∨ x = 1) :
    s.sum ≤ (s.length : ℚ) := by
  induction s with
  | nil => simp
  | cons a t ih =>
    simp only [List.sum_cons, List.length_cons]
    push_cast
    have ih2 := ih (fun x hx => hs x (List.mem_cons_of_mem _ hx))
    rcases hs a (List.mem_cons_self a t) with rfl | rfl <;> linarith

theorem sum_pos_of_mem_one_le (l : List ℚ) (hn : ∀ x ∈ l, 0 ≤ x) (a : ℚ)
    (ha : a ∈ l) (h1 : 1 ≤ a) : 0 < l.sum :=
  lt_of_lt_of_le one_pos (le_trans h1 (List.single_le_sum hn a ha))

theorem zip_mul_sum_pos (w1 w2 : List ℚ) (hl : w1.length = w2.length)
    (h1 : ∀ x ∈ w1, 0 < x) (h2 : ∀ x ∈ w2, 0 ≤ x) (hs : 0 < w2.sum) :
    0 < (List.zipWith (· * ·) w1 w2).sum := by
  induction w1 generalizing w2 with
  | nil =>
    cases w2 with
    | nil => simp at hs
    | cons b u => simp at hl
  | cons a t ih =>
    cases w2 with
    | nil => simp at hl
    | cons b u =>
      simp only [List.zipWith_cons_cons, List.sum_cons]
      have hb := h2 b (List.mem_cons_self b u)
      have ha := h1 a (List.mem_cons_self a t)
      rcases eq_or_lt_of_le hb with heq | hlt
      · have hu : 0 < u.sum := by
          rw [List.sum_cons, ← heq, zero_add] at hs
          exact hs
        have hrest := ih u (by simpa using hl)
          (fun x hx => h1 x (List.mem_cons_of_mem _ hx))
          (fun x hx => h2 x (List.mem_cons_of_mem _ hx)) hu
        have hab : (0 : ℚ) ≤ a * b := by rw [← heq, mul_zero]
        linarith
      · have hab : 0 < a * b := mul_pos ha hlt
        have hrest : 0 ≤ (List.zipWith (· * ·) t u).sum :=
          zip_mul_sum_nonneg t u (fun x hx => (h1 x (List.mem_cons_of_mem _ hx)).le)
            (fun x hx => h2 x (List.mem_cons_of_mem _ hx))
        linarith

theorem replicate_one_sum (n : ℕ) : (List.replicate n (1 : ℚ)).sum = n := by
  simp [List.sum_replicate]

theorem zip_mul_replicate_one (l : List ℚ) (n : ℕ) (h : l.length ≤ n) :
    List.zipWith (· * ·) l (List.replicate n 1) = l := by
  induction l generalizing n with
  | nil => simp
  | cons a t ih =>
    cases n with
    | zero => simp at h
    | succ m =>
      simp only [List.replicate_succ, List.zipWith_cons_cons, mul_one]
      rw [ih m (by simpa using h)]

/-! Lemmas about the class-imbalance weight construction. -/

theorem count01_partition (y : List ℤ) (h : ∀ l ∈ y, l = 0 ∨ l = 1) :
    (y.filter (· = 0)).length + (y.filter (· = 1)).length = y.length := by
  induction y with
  | nil => simp
  | cons a t ih =>
    have ht := ih (fun l hl => h l (List.mem_cons_of_mem a hl))
    rcases h a (List.mem_cons_self a t) with rfl | rfl <;>
      simp [List.filter_cons] <;> omega

theorem filter_mem_length_pos {y : List ℤ} {v : ℤ} (h : v ∈ y) :
    0 < (y.filter (· = v)).length :=
  List.length_pos_of_mem (List.mem_filter.mpr ⟨h, by simp⟩)

theorem dedup_length_two {y : List ℤ} (hwf : ∀ l ∈ y, l = 0 ∨ l = 1)
    (h0 : (0 : ℤ) ∈ y) (h1 : (1 : ℤ) ∈ y) : y.dedup.length = 2 := by
  have hfin : y.toFinset = ({0, 1} : Finset ℤ) := by
    ext a
    simp only [List.mem_toFinset, Finset.mem_insert, Finset.mem_singleton]
    exact ⟨fun ha => hwf a ha, fun ha => by rcases ha with rfl | rfl <;> assumption⟩
  have hc := List.card_toFinset y
  rw [hfin] at hc
  have h2 : ({0, 1} : Finset ℤ).card = 2 := by decide
  omega

theorem dedup_length_one {y : List ℤ} {v : ℤ} (hne : y ≠ [])
    (hall : ∀ l ∈ y, l = v) : y.dedup.length = 1 := by
  have hv : v ∈ y := by
    cases y with
    | nil => exact absurd rfl hne
    | cons a t =>
      have := hall a (List.mem_cons_self a t)
      exact this ▸ List.mem_cons_self a t
  have hfin : y.toFinset = ({v} : Finset ℤ) := by
    ext a
    simp only [List.mem_toFinset, Finset.mem_singleton]
    exact ⟨fun ha => hall a ha, fun ha => ha ▸ hv⟩
  have hc := List.card_toFinset y
  rw [hfin] at hc
  simp at hc
  omega

theorem getD_range (n i d : ℕ) (h : i < n) : (List.range n).getD i d = i := by
  rw [List.getD_eq_getElem?_getD, List.getElem?_range h]
  rfl

theorem wbci_length (data : Dataset) (y : List ℤ) (hy : data.y = some y) :
    (weight_based_on_class_imbalance data).length = y.dedup.length := by
  simp [weight_based_on_class_imbalance, hy]

theorem wbci_entry (data : Dataset) (y : List ℤ) (hy : data.y = some y) (i : ℕ)
    (hik : i < y.dedup.length) :
    (weight_based_on_class_imbalance data).getD i 0 =
      (y.length : ℚ) /
        ((y.dedup.length : ℚ) * ((y.filter (· = (i : ℤ))).length : ℚ)) := by
  simp only [weight_based_on_class_imbalance, hy, Option.getD_some]
  rw [getD_map_of_lt _ _ _ _ 0 (by simpa using hik), getD_range _ _ _ hik]

theorem class_weight_entry_in (W : List ℚ) (l : ℤ) (h0 : 0 ≤ l)
    (h1 : l < (W.length : ℤ)) :
    class_weight_entry W l = ((⌊W.getD l.toNat 0⌋ : ℤ) : ℚ) := by
  rw [class_weight_entry, if_pos ⟨h0, h1⟩]

theorem class_weight_entry_out (W : List ℚ) (l : ℤ)
    (h : ¬(0 ≤ l ∧ l < (W.length : ℤ))) :
    class_weight_entry W l = (l : ℚ) := by
  rw [class_weight_entry, if_neg h]

theorem gcw_none (data : Dataset) (hy : data.y = none) :
    get_class_weights data = (List.replicate data.X.length 1, [Warning.noClassData]) := by
  cases data with
  | mk X yo => subst hy; rfl

theorem gcw_some (data : Dataset) (y : List ℤ) (hy : data.y = some y) :
    get_class_weights data =
      (y.map (class_weight_entry (weight_based_on_class_imbalance ⟨data.X, some y⟩)),
        []) := by
  cases data with
  | mk X yo => subst hy; rfl

/-- For a well-formed labelled (or unlabelled) dataset, the class-balance
weight vector `_get_class_weights` constructs is non-negative, has one
entry per dataset row, and — on a nonempty dataset — has strictly
positive total sum.  (The minority class's inverse-frequency weight
`n / (2·count)` is at least 1, so it survives the int64 truncation.) -/
theorem get_class_weights_nonneg_sum (data : Dataset) (hwf : WFLabels data) :
    (∀ w ∈ (get_class_weights data).1, 0 ≤ w) ∧
    (get_class_weights data).1.length = data.X.length ∧
    (data.X ≠ [] → 0 < (get_class_weights data).1.sum) := by
  cases hy : data.y with
  | none =>
    have hgw := gcw_none data hy
    refine ⟨?_, ?_, ?_⟩
    · intro w hw
      simp only [hgw] at hw
      rw [List.eq_of_mem_replicate hw]
      norm_num
    · simp [hgw]
    · intro hne
      simp only [hgw]
      rw [replicate_one_sum]
      exact_mod_cast List.length_pos.mpr hne
  | some y =>
    obtain ⟨hlen, hbin⟩ := hwf y hy
    have hgw := gcw_some data y hy
    simp only [hgw]
    by_cases h0 : (0 : ℤ) ∈ y
    · by_cases h1 : (1 : ℤ) ∈ y
      · -- both classes observed
        have hk2 : y.dedup.length = 2 := dedup_length_two hbin h0 h1
        have hwlen : (weight_based_on_class_imbalance ⟨data.X, some y⟩).length = 2 := by
          rw [wbci_length ⟨data.X, some y⟩ y rfl, hk2]
        have hc0 : 0 < (y.filter (fun l => l = (0 : ℤ))).length := filter_mem_length_pos h0
        have hc1 : 0 < (y.filter (fun l => l = (1 : ℤ))).length := filter_mem_length_pos h1
        have hpart := count01_partition y hbin
        have he0 : (weight_based_on_class_imbalance ⟨data.X, some y⟩).getD 0 0 =
            (y.length : ℚ) / (2 * ((y.filter (fun l => l = (0 : ℤ))).length : ℚ)) := by
          rw [wbci_entry ⟨data.X, some y⟩ y rfl 0 (by omega), hk2]
          norm_num
        have he1 : (weight_based_on_class_imbalance ⟨data.X, some y⟩).getD 1 0 =
            (y.length : ℚ) / (2 * ((y.filter (fun l => l = (1 : ℤ))).length : ℚ)) := by
          rw [wbci_entry ⟨data.X, some y⟩ y rfl 1 (by omega), hk2]
          norm_num
        have hv0 : class_weight_entry (weight_based_on_class_imbalance ⟨data.X, some y⟩) 0 =
            ((⌊(y.length : ℚ) / (2 * ((y.filter (fun l => l = (0 : ℤ))).length : ℚ))⌋ : ℤ) : ℚ) := by
          rw [class_weight_entry_in _ _ le_rfl (by rw [hwlen]; norm_num)]
          rw [Int.toNat_zero, he0]
        have hv1 : class_weight_entry (weight_based_on_class_imbalance ⟨data.X, some y⟩) 1 =
            ((⌊(y.length : ℚ) / (2 * ((y.filter (fun l => l = (1 : ℤ))).length : ℚ))⌋ : ℤ) : ℚ) := by
          rw [class_weight_entry_in _ _ (by norm_num) (by rw [hwlen]; norm_num)]
          rw [Int.toNat_one, he1]
        have hnn : ∀ w ∈ y.map (class_weight_entry
            (weight_based_on_class_imbalance ⟨data.X, some y⟩)), 0 ≤ w := by
          intro w hw
          rcases List.mem_map.mp hw with ⟨l, hl, rfl⟩
          rcases hbin l hl with rfl | rfl
          · rw [hv0]
            have hfl : (0 : ℤ) ≤ ⌊(y.length : ℚ) /
                (2 * ((y.filter (fun l => l = (0 : ℤ))).length : ℚ))⌋ :=
              Int.floor_nonneg.mpr (by positivity)
            exact_mod_cast hfl
          · rw [hv1]
            have hfl : (0 : ℤ) ≤ ⌊(y.length : ℚ) /
                (2 * ((y.filter (fun l => l = (1 : ℤ))).length : ℚ))⌋ :=
              Int.floor_nonneg.mpr (by positivity)
            exact_mod_cast hfl
        refine ⟨hnn, by simp [hlen], fun hne => ?_⟩
        rcases le_total ((y.filter (fun l => l = (0 : ℤ))).length)
            ((y.filter (fun l => l = (1 : ℤ))).length) with hmin | hmin
        · apply sum_pos_of_mem_one_le _ hnn _ (List.mem_map_of_mem _ h0)
          rw [hv0]
          have hd : (0 : ℚ) < ((y.filter (fun l => l = (0 : ℤ))).length : ℚ) := by
            exact_mod_cast hc0
          have hge : (1 : ℚ) ≤
              (y.length : ℚ) / (2 * ((y.filter (fun l => l = (0 : ℤ))).length : ℚ)) := by
            rw [le_div_iff (by linarith)]
            have hnat : 2 * (y.filter (fun l => l = (0 : ℤ))).length ≤ y.length := by omega
            have hq : (2 : ℚ) * ((y.filter (fun l => l = (0 : ℤ))).length : ℚ) ≤
                (y.length : ℚ) := by exact_mod_cast hnat
            linarith
          have hfl : (1 : ℤ) ≤ ⌊(y.length : ℚ) /
              (2 * ((y.filter (fun l => l = (0 : ℤ))).length : ℚ))⌋ :=
            Int.le_floor.mpr (by exact_mod_cast hge)
          exact_mod_cast hfl
        · apply sum_pos_of_mem_one_le _ hnn _ (List.mem_map_of_mem _ h1)
          rw [hv1]
          have hd : (0 : ℚ) < ((y.filter (fun l => l = (1 : ℤ))).length : ℚ) := by
            exact_mod_cast hc1
          have hge : (1 : ℚ) ≤
              (y.length : ℚ) / (2 * ((y.filter (fun l => l = (1 : ℤ))).length : ℚ)) := by
            rw [le_div_iff (by linarith)]
            have hnat : 2 * (y.filter (fun l => l = (1 : ℤ))).length ≤ y.length := by omega
            have hq : (2 : ℚ) * ((y.filter (fun l => l = (1 : ℤ))).length : ℚ) ≤
                (y.length : ℚ) := by exact_mod_cast hnat
            linarith
          have hfl : (1 : ℤ) ≤ ⌊(y.length : ℚ) /
              (2 * ((y.filter (fun l => l = (1 : ℤ))).length : ℚ))⌋ :=
            Int.le_floor.mpr (by exact_mod_cast hge)
          exact_mod_cast hfl
      · -- only class 0 observed
        have hall : ∀ l ∈ y, l = (0 : ℤ) :=
          fun l hl => (hbin l hl).resolve_right (fun he => h1 (he ▸ hl))
        have hney : y ≠ [] := fun he => by
          rw [he] at h0; exact absurd h0 (List.not_mem_nil _)
        have hylen : 0 < y.length := List.length_pos.mpr hney
        have hk1 : y.dedup.length = 1 := dedup_length_one hney hall
        have hwlen : (weight_based_on_class_imbalance ⟨data.X, some y⟩).length = 1 := by
          rw [wbci_length ⟨data.X, some y⟩ y rfl, hk1]
        have hfs : y.filter (fun l => l = (0 : ℤ)) = y :=
          List.filter_eq_self.mpr (fun a ha => by simp [hall a ha])
        have hcast : ((y.length : ℚ)) ≠ 0 := by exact_mod_cast hylen.ne'
        have he0 : (weight_based_on_class_imbalance ⟨data.X, some y⟩).getD 0 0 = 1 := by
          rw [wbci_entry ⟨data.X, some y⟩ y rfl 0 (by omega), hk1]
          simp only [Nat.cast_zero, Nat.cast_one, one_mul]
          rw [hfs, div_self hcast]
        have hval : class_weight_entry
            (weight_based_on_class_imbalance ⟨data.X, some y⟩) 0 = 1 := by
          rw [class_weight_entry_in _ _ le_rfl (by rw [hwlen]; norm_num)]
          rw [Int.toNat_zero, he0]
          norm_num
        have hnn : ∀ w ∈ y.map (class_weight_entry
            (weight_based_on_class_imbalance ⟨data.X, some y⟩)), 0 ≤ w := by
          intro w hw
          rcases List.mem_map.mp hw with ⟨l, hl, rfl⟩
          rw [hall l hl, hval]
          norm_num
        refine ⟨hnn, by simp [hlen], fun hne => ?_⟩
        apply sum_pos_of_mem_one_le _ hnn _ (List.mem_map_of_mem _ h0)
        rw [hval]
    · by_cases h1 : (1 : ℤ) ∈ y
      · -- only class 1 observed
        have hall : ∀ l ∈ y, l = (1 : ℤ) :=
          fun l hl => (hbin l hl).resolve_left (fun he => h0 (he ▸ hl))
        have hney : y ≠ [] := fun he => by
          rw [he] at h1; exact absurd h1 (List.not_mem_nil _)
        have hk1 : y.dedup.length = 1 := dedup_length_one hney hall
        have hwlen : (weight_based_on_class_imbalance ⟨data.X, some y⟩).length = 1 := by
          rw [wbci_length ⟨data.X, some y⟩ y rfl, hk1]
        have hval : class_weight_entry
            (weight_based_on_class_imbalance ⟨data.X, some y⟩) 1 = 1 := by
          rw [class_weight_entry_out _ _ (by rw [hwlen]; norm_num)]
          norm_num
        have hnn : ∀ w ∈ y.map (class_weight_entry
            (weight_based_on_class_imbalance ⟨data.X, some y⟩)), 0 ≤ w := by
          intro w hw
          rcases List.mem_map.mp hw with ⟨l, hl, rfl⟩
          rw [hall l hl, hval]
          norm_num
        refine ⟨hnn, by simp [hlen], fun hne => ?_⟩
        apply sum_pos_of_mem_one_le _ hnn _ (List.mem_map_of_mem _ h1)
        rw [hval]
      · -- no labels at all: the label vector is empty
        have hye : y = [] := by
          cases y with
          | nil => rfl
          | cons a t =>
            rcases hbin a (List.mem_cons_self a t) with rfl | rfl
            · exact absurd (List.mem_cons_self _ t) h0
            · exact absurd (List.mem_cons_self _ t) h1
        subst hye
        have hXe : data.X = [] := List.length_eq_zero.mp hlen.symm
        exact ⟨by simp, by simp [hXe], fun hne => absurd hXe hne⟩

theorem zip_mul_mem_nonneg (a b : List ℚ) (ha : ∀ x ∈ a, 0 ≤ x) (hb : ∀ x ∈ b, 0 ≤ x) :
    ∀ x ∈ List.zipWith (· * ·) a b, 0 ≤ x := by
  induction a generalizing b with
  | nil => simp
  | cons p t ih =>
    cases b with
    | nil => simp
    | cons q u =>
      intro x hx
      rcases List.mem_cons.mp hx with rfl | hx
      · exact mul_nonneg (ha p (List.mem_cons_self p t)) (hb q (List.mem_cons_self q u))
      · exact ih u (fun z hz => ha z (List.mem_cons_of_mem _ hz))
          (fun z hz => hb z (List.mem_cons_of_mem _ hz)) x hx

/-- On a nonempty dataset, plain fidelity returns a finite score in
`[0, 1]`: the agreement vector has entries in `{0, 1}` and the
denominator is the row count. -/
theorem plain_fid_score (expl bb : Vec → ℤ) (data : Dataset) (hne : data.X ≠ []) :
    ∃ q, fidelity expl bb data = FidResult.score q ∧ 0 ≤ q ∧ q ≤ 1 := by
  have hpos : 0 < data.X.length := List.length_pos.mpr hne
  have hdpos : (0 : ℚ) < ((same_preds expl bb data.X).length : ℚ) := by
    rw [same_preds_length]
    exact_mod_cast hpos
  simp only [fidelity]
  rw [same_preds_isEmpty_false expl bb data.X hne, pySumDiv_nonempty _ _ hdpos.ne']
  refine ⟨_, rfl, ?_, ?_⟩
  · exact div_nonneg (List.sum_nonneg (fun x hx => by
      rcases same_preds_mem expl bb data.X x hx with rfl | rfl <;> norm_num)) hdpos.le
  · rw [div_le_one hdpos]
    exact sum_le_length _ (same_preds_mem expl bb data.X)

/-- The shared weighted aggregation returns a finite score in `[0, 1]`
whenever the dataset is nonempty and the weights are non-negative with
positive sum. -/
theorem weighted_fid_score (expl bb : Vec → ℤ) (X : Mat) (w : List ℚ) (hne : X ≠ [])
    (hw : ∀ x ∈ w, 0 ≤ x) (hsum : 0 < w.sum) :
    ∃ q, pySumDiv (List.zipWith (· * ·) (same_preds expl bb X) w).sum w.sum
        (same_preds expl bb X).isEmpty = FidResult.score q ∧ 0 ≤ q ∧ q ≤ 1 := by
  rw [same_preds_isEmpty_false expl bb X hne, pySumDiv_nonempty _ _ hsum.ne']
  refine ⟨_, rfl, ?_, ?_⟩
  · exact div_nonneg (zip_mul_sum_nonneg _ _ (fun x hx => by
      rcases same_preds_mem expl bb X x hx with rfl | rfl <;> norm_num) hw) hsum.le
  · rw [div_le_one hsum]
    exact zip_mul_sum_le _ _ (same_preds_mem expl bb X) hw

end Clime

namespace Clime

/-- C7 (confirmed): plain fidelity equals local fidelity computed with an
all-ones weight vector in place of the distance weights — exactly, hence
within any floating tolerance: the elementwise product with ones is the
agreement vector itself and the weight total is the row count. -/
theorem fidelity_eq_local_with_ones (expl bb : Vec → ℤ) (data : Dataset)
    (hne : data.X ≠ []) :
    fidelity expl bb data =
      local_fidelity_with_weights expl bb data (List.replicate data.X.length 1) := by
  have hlen : (same_preds expl bb data.X).length = data.X.length :=
    same_preds_length expl bb data.X
  simp only [fidelity, local_fidelity_with_weights]
  rw [zip_mul_replicate_one _ _ hlen.le, replicate_one_sum, hlen]

theorem fidelity_eq_local_with_ones_witness :
    (dataW.X ≠ []) ∧
    fidelity modelA modelA dataW =
      local_fidelity_with_weights modelA modelA dataW (List.replicate dataW.X.length 1) :=
  ⟨by simp [dataW], fidelity_eq_local_with_ones modelA modelA dataW (by simp [dataW])⟩

/-- C8 (confirmed): on a nonempty dataset without a label vector,
class-balanced fidelity degrades to uniform weighting — it returns
exactly the value of plain fidelity (a finite score, not an error) — and
emits the non-fatal "no class data" warning. -/
theorem bal_fidelity_no_labels_degrades (expl bb : Vec → ℤ) (data : Dataset)
    (hy : data.y = none) (hne : data.X ≠ []) :
    (bal_fidelity expl bb data).1 = fidelity expl bb data ∧
    (bal_fidelity expl bb data).2 = [Warning.noClassData] ∧
    ∃ q, fidelity expl bb data = FidResult.score q := by
  have hgw := gcw_none data hy
  have hlen : (same_preds expl bb data.X).length = data.X.length :=
    same_preds_length expl bb data.X
  refine ⟨?_, ?_, ?_⟩
  · simp only [bal_fidelity, fidelity, hgw]
    rw [zip_mul_replicate_one _ _ hlen.le, replicate_one_sum, hlen]
  · simp [bal_fidelity, hgw]
  · obtain ⟨q, hq, -, -⟩ := plain_fid_score expl bb data hne
    exact ⟨q, hq⟩

theorem bal_fidelity_no_labels_degrades_witness :
    (dataNoY.y = none ∧ dataNoY.X ≠ []) ∧
    ((bal_fidelity modelA modelA dataNoY).1 = fidelity modelA modelA dataNoY ∧
      (bal_fidelity modelA modelA dataNoY).2 = [Warning.noClassData] ∧
      ∃ q, fidelity modelA modelA dataNoY = FidResult.score q) :=
  ⟨⟨rfl, by simp [dataNoY]⟩,
    bal_fidelity_no_labels_degrades modelA modelA dataNoY rfl (by simp [dataNoY])⟩

/-- C9 (confirmed): on a nonempty dataset, whenever the weight vector a
variant constructs is non-negative with positive total sum, that variant
returns a finite score in the closed interval `[0, 1]` (for plain
fidelity the weights are implicitly all ones, so no condition is
needed). -/
theorem fidelity_variants_unit_interval (expl bb : Vec → ℤ) (data : Dataset)
    (query_point : Vec) (hne : data.X ≠ []) :
    (∃ q, fidelity expl bb data = FidResult.score q ∧ 0 ≤ q ∧ q ≤ 1) ∧
    ((∀ x ∈ weights_based_on_distance query_point data.X, 0 ≤ x) →
      0 < (weights_based_on_distance query_point data.X).sum →
      ∃ q, local_fidelity expl bb data query_point = FidResult.score q ∧
        0 ≤ q ∧ q ≤ 1) ∧
    ((∀ x ∈ (get_class_weights data).1, 0 ≤ x) →
      0 < (get_class_weights data).1.sum →
      ∃ q, (bal_fidelity expl bb data).1 = FidResult.score q ∧ 0 ≤ q ∧ q ≤ 1) ∧
    ((∀ x ∈ List.zipWith (· * ·) (weights_based_on_distance query_point data.X)
        (get_class_weights data).1, 0 ≤ x) →
      0 < (List.zipWith (· * ·) (weights_based_on_distance query_point data.X)
        (get_class_weights data).1).sum →
      ∃ q, (local_and_bal_fidelity expl bb data query_point).1 = FidResult.score q ∧
        0 ≤ q ∧ q ≤ 1) := by
  refine ⟨plain_fid_score expl bb data hne, fun hw hs => ?_, fun hw hs => ?_,
    fun hw hs => ?_⟩
  · simpa only [local_fidelity] using weighted_fid_score expl bb data.X _ hne hw hs
  · simpa only [bal_fidelity] using weighted_fid_score expl bb data.X _ hne hw hs
  · simpa only [local_and_bal_fidelity] using
      weighted_fid_score expl bb data.X _ hne hw hs

theorem fidelity_variants_unit_interval_witness :
    (dataNoY.X ≠ []) ∧
    (∃ q, fidelity modelA modelA dataNoY = FidResult.score q ∧ 0 ≤ q ∧ q ≤ 1) ∧
    (∃ q, local_fidelity modelA modelA dataNoY [0] = FidResult.score q ∧
      0 ≤ q ∧ q ≤ 1) ∧
    (∃ q, (bal_fidelity modelA modelA dataNoY).1 = FidResult.score q ∧
      0 ≤ q ∧ q ≤ 1) ∧
    (∃ q, (local_and_bal_fidelity modelA modelA dataNoY [0]).1 = FidResult.score q ∧
      0 ≤ q ∧ q ≤ 1) := by
  have hne : dataNoY.X ≠ [] := by simp [dataNoY]
  have hwf : WFLabels dataNoY := fun y hy => Option.noConfusion hy
  have hdp := dist_weights_pos [0] dataNoY.X
  have hdn : weights_based_on_distance [0] dataNoY.X ≠ [] := by
    intro hnil
    have h := dist_weights_length [0] dataNoY.X
    rw [hnil] at h
    simp [dataNoY] at h
  have hds : 0 < (weights_based_on_distance [0] dataNoY.X).sum :=
    List.sum_pos _ hdp hdn
  obtain ⟨hcnn, hclen, hcsum⟩ := get_class_weights_nonneg_sum dataNoY hwf
  have hcs := hcsum hne
  have hlb : 0 < (List.zipWith (· * ·) (weights_based_on_distance [0] dataNoY.X)
      (get_class_weights dataNoY).1).sum :=
    zip_mul_sum_pos _ _ (by rw [dist_weights_length, hclen]) hdp hcnn hcs
  refine ⟨hne, (fidelity_variants_unit_interval modelA modelA dataNoY [0] hne).1,
    (fidelity_variants_unit_interval modelA modelA dataNoY [0] hne).2.1
      (fun x hx => (hdp x hx).le) hds,
    (fidelity_variants_unit_interval modelA modelA dataNoY [0] hne).2.2.1 hcnn hcs,
    (fidelity_variants_unit_interval modelA modelA dataNoY [0] hne).2.2.2
      (zip_mul_mem_nonneg _ _ (fun x hx => (hdp x hx).le) hcnn) hlb⟩

/-- C4 (confirmed): in every fidelity variant, an empty dataset — or
equivalently a constructed weight vector summing to zero, the only way
that can happen — makes the call raise `ZeroDivisionError` (a subclass of
Python's `ArithmeticError`: both builtin sums are Python ints there), and
no variant ever returns numpy's silent `nan` or `inf`: on well-formed
data a nonempty dataset always yields a strictly positive weight total,
so the numpy-scalar division-by-zero path is unreachable. -/
theorem fidelity_error_discipline (expl bb : Vec → ℤ) (data : Dataset)
    (query_point : Vec) (hwf : WFLabels data) :
    ((data.X = [] ∨ (List.replicate data.X.length (1 : ℚ)).sum = 0) →
      fidelity expl bb data = FidResult.zeroDivisionError) ∧
    ((data.X = [] ∨ (weights_based_on_distance query_point data.X).sum = 0) →
      local_fidelity expl bb data query_point = FidResult.zeroDivisionError) ∧
    ((data.X = [] ∨ (get_class_weights data).1.sum = 0) →
      (bal_fidelity expl bb data).1 = FidResult.zeroDivisionError) ∧
    ((data.X = [] ∨ (List.zipWith (· * ·) (weights_based_on_distance query_point data.X)
        (get_class_weights data).1).sum = 0) →
      (local_and_bal_fidelity expl bb data query_point).1 = FidResult.zeroDivisionError) ∧
    (fidelity expl bb data ≠ FidResult.nan ∧ fidelity expl bb data ≠ FidResult.inf) ∧
    (local_fidelity expl bb data query_point ≠ FidResult.nan ∧
      local_fidelity expl bb data query_point ≠ FidResult.inf) ∧
    ((bal_fidelity expl bb data).1 ≠ FidResult.nan ∧
      (bal_fidelity expl bb data).1 ≠ FidResult.inf) ∧
    ((local_and_bal_fidelity expl bb data query_point).1 ≠ FidResult.nan ∧
      (local_and_bal_fidelity expl bb data query_point).1 ≠ FidResult.inf) := by
  obtain ⟨hcnn, hclen, hcsum⟩ := get_class_weights_nonneg_sum data hwf
  by_cases hX : data.X = []
  · have hie : (same_preds expl bb data.X).isEmpty = true := by rw [hX]; rfl
    have h1 : fidelity expl bb data = FidResult.zeroDivisionError := by
      simp only [fidelity]; rw [hie]; rfl
    have h2 : local_fidelity expl bb data query_point = FidResult.zeroDivisionError := by
      simp only [local_fidelity]; rw [hie]; rfl
    have h3 : (bal_fidelity expl bb data).1 = FidResult.zeroDivisionError := by
      simp only [bal_fidelity]; rw [hie]; rfl
    have h4 : (local_and_bal_fidelity expl bb data query_point).1 =
        FidResult.zeroDivisionError := by
      simp only [local_and_bal_fidelity]; rw [hie]; rfl
    exact ⟨fun _ => h1, fun _ => h2, fun _ => h3, fun _ => h4,
      ⟨by simp [h1], by simp [h1]⟩, ⟨by simp [h2], by simp [h2]⟩,
      ⟨by simp [h3], by simp [h3]⟩, ⟨by simp [h4], by simp [h4]⟩⟩
  · have hie := same_preds_isEmpty_false expl bb data.X hX
    have hXlen : 0 < data.X.length := List.length_pos.mpr hX
    have hdpos := dist_weights_pos query_point data.X
    have hdne : weights_based_on_distance query_point data.X ≠ [] := by
      intro hnil
      have h := dist_weights_length query_point data.X
      rw [hnil] at h
      exact hX (List.length_eq_zero.mp h.symm)
    have hdsum : 0 < (weights_based_on_distance query_point data.X).sum :=
      List.sum_pos _ hdpos hdne
    have hcs : 0 < (get_class_weights data).1.sum := hcsum hX
    have hlbsum : 0 < (List.zipWith (· * ·)
        (weights_based_on_distance query_point data.X) (get_class_weights data).1).sum :=
      zip_mul_sum_pos _ _ (by rw [dist_weights_length, hclen]) hdpos hcnn hcs
    have hnlen : (0 : ℚ) < ((same_preds expl bb data.X).length : ℚ) := by
      rw [same_preds_length]
      exact_mod_cast hXlen
    refine ⟨?_, ?_, ?_, ?_, ?_, ?_, ?_, ?_⟩
    · rintro (h | h)
      · exact absurd h hX
      · rw [replicate_one_sum] at h
        exact absurd (List.length_eq_zero.mp (by exact_mod_cast h)) hX
    · rintro (h | h)
      · exact absurd h hX
      · exact absurd h hdsum.ne'
    · rintro (h | h)
      · exact absurd h hX
      · exact absurd h hcs.ne'
    · rintro (h | h)
      · exact absurd h hX
      · exact absurd h hlbsum.ne'
    · simp only [fidelity]
      rw [hie, pySumDiv_nonempty _ _ hnlen.ne']
      exact ⟨fun h => FidResult.noConfusion h, fun h => FidResult.noConfusion h⟩
    · simp only [local_fidelity]
      rw [hie, pySumDiv_nonempty _ _ hdsum.ne']
      exact ⟨fun h => FidResult.noConfusion h, fun h => FidResult.noConfusion h⟩
    · simp only [bal_fidelity]
      rw [hie, pySumDiv_nonempty _ _ hcs.ne']
      exact ⟨fun h => FidResult.noConfusion h, fun h => FidResult.noConfusion h⟩
    · simp only [local_and_bal_fidelity]
      rw [hie, pySumDiv_nonempty _ _ hlbsum.ne']
      exact ⟨fun h => FidResult.noConfusion h, fun h => FidResult.noConfusion h⟩

theorem fidelity_error_discipline_witness :
    WFLabels dataE ∧
    (fidelity modelA modelA dataE = FidResult.zeroDivisionError ∧
      local_fidelity modelA modelA dataE [0] = FidResult.zeroDivisionError ∧
      (bal_fidelity modelA modelA dataE).1 = FidResult.zeroDivisionError ∧
      (local_and_bal_fidelity modelA modelA dataE [0]).1 = FidResult.zeroDivisionError) :=
  ⟨fun y hy => Option.noConfusion hy,
    (fidelity_error_discipline modelA modelA dataE [0]
      (fun y hy => Option.noConfusion hy)).1 (Or.inl rfl),
    (fidelity_error_discipline modelA modelA dataE [0]
      (fun y hy => Option.noConfusion hy)).2.1 (Or.inl rfl),
    (fidelity_error_discipline modelA modelA dataE [0]
      (fun y hy => Option.noConfusion hy)).2.2.1 (Or.inl rfl),
    (fidelity_error_discipline modelA modelA dataE [0]
      (fun y hy => Option.noConfusion hy)).2.2.2.1 (Or.inl rfl)⟩

end Clime
